import Mathlib

/-!
Verification of the fc-lab repository: a total-ordering adapter over IEEE-754
binary64 values (`TotalFloat`) and a top-down merge sort over sequences of them.

The embedding below is translated from `src/src/lib.rs` (the library) and
`src/src/main.rs` (the demonstration entry point).  Doubles are modelled at the
bit-pattern level (sign, 11-bit exponent field, 52-bit mantissa field), and the
Rust primitives `f64::is_nan`, `f64::partial_cmp` and `f64::eq` are given their
IEEE-754 semantics over that representation: a pattern with exponent field all
ones and non-zero mantissa is NaN; `partial_cmp` is `none` iff an operand is
NaN and otherwise compares numeric values with -0.0 = +0.0 and the two
infinities at the ends; `eq` is the standard IEEE equality.
-/

set_option maxHeartbeats 2000000
set_option exponentiation.threshold 3000

namespace FcLab

/-- An IEEE-754 binary64 bit pattern: 1 sign bit, 11 exponent bits, 52
mantissa bits.  The fields are kept as `Bool`/`Nat`; every representable
double corresponds to a value with `exponent < 2048` and `mantissa < 2 ^ 52`. -/
structure F64 where
  sign : Bool
  exponent : Nat
  mantissa : Nat
deriving DecidableEq

/-- `f64::is_nan`: the exponent field is all ones and the mantissa is non-zero. -/
def F64.is_nan (x : F64) : Bool :=
  x.exponent == 2047 && x.mantissa != 0

/-- Exact numeric value of a finite bit pattern, scaled by `2 ^ 1074` so that
it is an integer: a subnormal (`exponent = 0`) has value `mantissa * 2 ^ (-1074)`
and a normal number has value `(2 ^ 52 + mantissa) * 2 ^ (exponent - 1075)`. -/
def F64.scaled (x : F64) : Int :=
  let mag : Nat :=
    if x.exponent = 0 then x.mantissa else (2 ^ 52 + x.mantissa) * 2 ^ (x.exponent - 1)
  if x.sign then -(mag : Int) else (mag : Int)

/-- Classification of a non-NaN double for comparison purposes: negative
infinity, a finite value (identified by its exact scaled numeric value, so that
-0.0 and +0.0 coincide), or positive infinity. -/
inductive Ext where
  | negInf
  | fin (v : Int)
  | posInf
deriving DecidableEq

/-- Numeric comparison on the classification: `negInf < fin _ < posInf`, finite
values by their exact value. -/
def Ext.cmp : Ext → Ext → Ordering
  | .negInf, .negInf => .eq
  | .negInf, _ => .lt
  | _, .negInf => .gt
  | .fin a, .fin b => compare a b
  | .fin _, .posInf => .lt
  | .posInf, .fin _ => .gt
  | .posInf, .posInf => .eq

/-- The numeric classification of a (non-NaN) bit pattern. -/
def F64.toExt (x : F64) : Ext :=
  if x.exponent = 2047 then (if x.sign then .negInf else .posInf) else .fin x.scaled

/-- `f64::partial_cmp`: `none` iff either operand is NaN, otherwise the IEEE
numeric comparison. -/
def f64PartialCmp (x y : F64) : Option Ordering :=
  if x.is_nan || y.is_nan then none else some (Ext.cmp x.toExt y.toExt)

/-- `f64::eq`: standard IEEE equality — false when either operand is NaN,
numeric equality otherwise (so `-0.0 == 0.0` and `inf == inf`). -/
def f64Eq (x y : F64) : Bool :=
  !x.is_nan && !y.is_nan && (Ext.cmp x.toExt y.toExt == Ordering.eq)

/-- `pub struct TotalFloat { pub inner: f64 }` from `src/src/lib.rs`. -/
structure TotalFloat where
  inner : F64
deriving DecidableEq

/-- `PartialEq::eq` for `TotalFloat`:
`(self.is_nan() && other.is_nan()) || self.inner.eq(&other.inner)`. -/
def TotalFloat.eq (a b : TotalFloat) : Bool :=
  (a.inner.is_nan && b.inner.is_nan) || f64Eq a.inner b.inner

/-- `Ord::cmp` for `TotalFloat`, with the fallible
`partial_cmp(..).expect(..)` in the `(false, false)` branch modelled as an
`Option`: `none` is the branch where the `expect` would abort. -/
def TotalFloat.cmpOpt (a b : TotalFloat) : Option Ordering :=
  match a.inner.is_nan, b.inner.is_nan with
  | true, true => some .eq
  | true, false => some .lt
  | false, true => some .gt
  | false, false => f64PartialCmp a.inner b.inner

/-- `Ord::cmp` for `TotalFloat` as a total function; `TotalFloat.cmpOpt` is
proved below to never be `none`, so the default is irrelevant. -/
def TotalFloat.cmp (a b : TotalFloat) : Ordering :=
  (TotalFloat.cmpOpt a b).getD .eq

/-- `a <= b` in the order of `Ord::cmp` (`PartialOrd` on `TotalFloat` is
`Some(self.cmp(other))`, so Rust's `at > bt` is `cmp at bt = gt`). -/
def tfLe (a b : TotalFloat) : Prop :=
  TotalFloat.cmp a b ≠ .gt

instance : DecidableRel tfLe := fun a b =>
  inferInstanceAs (Decidable (TotalFloat.cmp a b ≠ .gt))

/-- `pub fn merge` from `src/src/lib.rs`: repeatedly compare the heads of the
two inputs, emitting the right head when the left head is strictly greater
(`at > bt`) and the left head otherwise; once one input is exhausted the
remainder of the other is emitted in order. -/
def merge : List TotalFloat → List TotalFloat → List TotalFloat
  | [], b => b
  | a :: as, [] => a :: as
  | x :: xs, y :: ys =>
    if TotalFloat.cmp x y = .gt then y :: merge (x :: xs) ys
    else x :: merge xs (y :: ys)
termination_by a b => a.length + b.length

/-- `pub fn merge_sort` from `src/src/lib.rs`: if the input has length at most
one it is returned unchanged; otherwise `input.split_off(n / 2)` removes the
second half (indices `n / 2` onward, i.e. `drop (n / 2)`) which is sorted and
passed as `merge`'s first argument, and the remaining first half
(`take (n / 2)`) is sorted and passed as the second argument. -/
def merge_sort (input : List TotalFloat) : List TotalFloat :=
  if input.length ≤ 1 then input
  else
    merge (merge_sort (input.drop (input.length / 2)))
      (merge_sort (input.take (input.length / 2)))
termination_by input.length
decreasing_by
  · simp only [List.length_drop]; omega
  · simp only [List.length_take]; omega

/-- Key of a non-NaN classification in `ℕ ×ₗ ℤ` (used only in proofs). -/
def Ext.key : Ext → ℕ ×ₗ ℤ
  | .negInf => toLex (1, 0)
  | .fin v => toLex (2, v)
  | .posInf => toLex (3, 0)

/-- Key of a `TotalFloat` in `ℕ ×ₗ ℤ`: NaN at the bottom, then the key of the
numeric classification (used only in proofs). -/
def key (a : TotalFloat) : ℕ ×ₗ ℤ :=
  if a.inner.is_nan then toLex (0, 0) else a.inner.toExt.key

/-! Concrete bit patterns used in witnesses, counterexamples and the model of
the demonstration entry point `src/src/main.rs`. -/

/-- The double `1.0`: exponent field `1023`, zero mantissa. -/
def f64_one : F64 := ⟨false, 1023, 0⟩

/-- The double `2.0`. -/
def f64_two : F64 := ⟨false, 1024, 0⟩

/-- The double `3.0` = 1.5 * 2. -/
def f64_three : F64 := ⟨false, 1024, 2 ^ 51⟩

/-- The double `5.0` = 1.25 * 4. -/
def f64_five : F64 := ⟨false, 1025, 2 ^ 50⟩

/-- The double `192.0` = 1.5 * 128. -/
def f64_192 : F64 := ⟨false, 1030, 2 ^ 51⟩

/-- The quiet NaN produced by `-0.0 / 0.0` (sign bit set, quiet bit set). -/
def f64_nan_quiet : F64 := ⟨true, 2047, 2 ^ 51⟩

/-- The double `+0.0`. -/
def tfPosZero : TotalFloat := ⟨⟨false, 0, 0⟩⟩

/-- The double `-0.0`. -/
def tfNegZero : TotalFloat := ⟨⟨true, 0, 0⟩⟩

/-- Wrapped `1.0`. -/
def tfOne : TotalFloat := ⟨f64_one⟩

/-- Wrapped `2.0`. -/
def tfTwo : TotalFloat := ⟨f64_two⟩

/-- A (positive, payload 1) NaN pattern. -/
def tfNan : TotalFloat := ⟨⟨false, 2047, 1⟩⟩

/-- Negative infinity. -/
def tfNegInf : TotalFloat := ⟨⟨true, 2047, 0⟩⟩

/-- `let my_list = tfvec![1.0, 2.0, 5.0, 3.0, 192.0, (-0.0/0.0)];` from
`fn main` in `src/src/main.rs`. -/
def my_list : List TotalFloat :=
  [⟨f64_one⟩, ⟨f64_two⟩, ⟨f64_five⟩, ⟨f64_three⟩, ⟨f64_192⟩, ⟨f64_nan_quiet⟩]

/-- The sequence whose debug rendering `fn main` prints:
`println!("{:?}", my_list)` renders `my_list` itself — `main` never calls
`merge_sort` (indeed `src/src/main.rs` is a standalone binary that does not
even reference the sort). -/
def main_rendered : List TotalFloat := my_list

/-!
Order theory of `TotalFloat.cmp`.  The comparison is shown to coincide with
the order of the key function into the lexicographic product `ℕ ×ₗ ℤ`: rank 0
for NaN, 1 for negative infinity, 2 (paired with the exact scaled value) for
finite patterns, 3 for positive infinity.  All total-preorder facts then come
from the linear order on `ℕ ×ₗ ℤ`.
-/

theorem Ext.cmp_eq_lt_iff (x y : Ext) : Ext.cmp x y = .lt ↔ x.key < y.key := by
  cases x <;> cases y <;>
    simp [Ext.cmp, Ext.key, Prod.Lex.lt_iff, compare_lt_iff_lt]

theorem Ext.cmp_eq_eq_iff (x y : Ext) : Ext.cmp x y = .eq ↔ x.key = y.key := by
  cases x <;> cases y <;>
    simp [Ext.cmp, Ext.key, Prod.ext_iff, compare_eq_iff_eq]

theorem Ext.cmp_eq_gt_iff (x y : Ext) : Ext.cmp x y = .gt ↔ y.key < x.key := by
  cases x <;> cases y <;>
    simp [Ext.cmp, Ext.key, Prod.Lex.lt_iff, compare_gt_iff_gt]

theorem toExt_key_pos (x : F64) : toLex ((0 : ℕ), (0 : ℤ)) < x.toExt.key := by
  cases h : x.toExt with
  | negInf =>
    exact show toLex ((0:ℕ), (0:ℤ)) < toLex (1, 0) from
      (Prod.Lex.lt_iff _ _).mpr (Or.inl (show (0:ℕ) < 1 by omega))
  | fin v =>
    exact show toLex ((0:ℕ), (0:ℤ)) < toLex (2, v) from
      (Prod.Lex.lt_iff _ _).mpr (Or.inl (show (0:ℕ) < 2 by omega))
  | posInf =>
    exact show toLex ((0:ℕ), (0:ℤ)) < toLex (3, 0) from
      (Prod.Lex.lt_iff _ _).mpr (Or.inl (show (0:ℕ) < 3 by omega))

theorem tf_cmp_eq_lt_iff (a b : TotalFloat) :
    TotalFloat.cmp a b = .lt ↔ key a < key b := by
  unfold TotalFloat.cmp TotalFloat.cmpOpt key f64PartialCmp
  cases ha : a.inner.is_nan <;> cases hb : b.inner.is_nan
  · exact Ext.cmp_eq_lt_iff _ _
  · show Ordering.gt = Ordering.lt ↔ a.inner.toExt.key < toLex ((0:ℕ), (0:ℤ))
    exact iff_of_false (by decide)
      (fun h => absurd (lt_trans h (toExt_key_pos a.inner)) (lt_irrefl _))
  · exact iff_of_true rfl (toExt_key_pos b.inner)
  · show Ordering.eq = Ordering.lt ↔
      toLex ((0:ℕ), (0:ℤ)) < toLex ((0:ℕ), (0:ℤ))
    exact iff_of_false (by decide) (lt_irrefl _)

theorem tf_cmp_eq_eq_iff (a b : TotalFloat) :
    TotalFloat.cmp a b = .eq ↔ key a = key b := by
  unfold TotalFloat.cmp TotalFloat.cmpOpt key f64PartialCmp
  cases ha : a.inner.is_nan <;> cases hb : b.inner.is_nan
  · exact Ext.cmp_eq_eq_iff _ _
  · show Ordering.gt = Ordering.eq ↔ a.inner.toExt.key = toLex ((0:ℕ), (0:ℤ))
    exact iff_of_false (by decide)
      (fun h => absurd (h ▸ toExt_key_pos a.inner) (lt_irrefl _))
  · show Ordering.lt = Ordering.eq ↔ toLex ((0:ℕ), (0:ℤ)) = b.inner.toExt.key
    exact iff_of_false (by decide)
      (fun h => absurd (h ▸ toExt_key_pos b.inner) (lt_irrefl _))
  · exact iff_of_true rfl rfl

theorem tf_cmp_eq_gt_iff (a b : TotalFloat) :
    TotalFloat.cmp a b = .gt ↔ key b < key a := by
  unfold TotalFloat.cmp TotalFloat.cmpOpt key f64PartialCmp
  cases ha : a.inner.is_nan <;> cases hb : b.inner.is_nan
  · exact Ext.cmp_eq_gt_iff _ _
  · exact iff_of_true rfl (toExt_key_pos a.inner)
  · show Ordering.lt = Ordering.gt ↔ b.inner.toExt.key < toLex ((0:ℕ), (0:ℤ))
    exact iff_of_false (by decide)
      (fun h => absurd (lt_trans h (toExt_key_pos b.inner)) (lt_irrefl _))
  · show Ordering.eq = Ordering.gt ↔
      toLex ((0:ℕ), (0:ℤ)) < toLex ((0:ℕ), (0:ℤ))
    exact iff_of_false (by decide) (lt_irrefl _)

theorem tfLe_iff (a b : TotalFloat) : tfLe a b ↔ key a ≤ key b := by
  rw [tfLe, not_iff_comm.symm, tf_cmp_eq_gt_iff, not_le]

theorem tfLe_trans {a b c : TotalFloat} (h₁ : tfLe a b) (h₂ : tfLe b c) :
    tfLe a c := by
  rw [tfLe_iff] at *
  exact le_trans h₁ h₂

theorem tfLe_of_gt {a b : TotalFloat} (h : TotalFloat.cmp a b = .gt) :
    tfLe b a := by
  rw [tfLe_iff]
  exact le_of_lt ((tf_cmp_eq_gt_iff a b).mp h)

theorem tfLe_of_not_gt {a b : TotalFloat} (h : TotalFloat.cmp a b ≠ .gt) :
    tfLe a b := h

theorem cmp_eq_of_le_le {a b : TotalFloat} (h₁ : tfLe a b) (h₂ : tfLe b a) :
    TotalFloat.cmp a b = .eq := by
  rw [tfLe_iff] at h₁ h₂
  exact (tf_cmp_eq_eq_iff a b).mpr (le_antisymm h₁ h₂)

theorem eq_true_iff_cmp_eq (a b : TotalFloat) :
    TotalFloat.eq a b = true ↔ TotalFloat.cmp a b = .eq := by
  unfold TotalFloat.eq f64Eq TotalFloat.cmp TotalFloat.cmpOpt f64PartialCmp
  generalize Ext.cmp a.inner.toExt b.inner.toExt = o
  cases ha : a.inner.is_nan <;> cases hb : b.inner.is_nan <;> cases o <;> decide

/-- Evaluation form of `compare` on `ℤ`, used to compute comparisons of
concrete bit patterns inside `simp`. -/
theorem compare_int_eval (a b : ℤ) :
    compare a b = if a < b then .lt else if a = b then .eq else .gt :=
  LinearOrder.compare_eq_compareOfLessAndEq a b

/-! Behaviour of `merge` and `merge_sort`. -/

theorem merge_perm : ∀ (a b : List TotalFloat), (merge a b).Perm (a ++ b) := by
  intro a
  induction a with
  | nil => intro b; simp [merge]
  | cons x xs ih =>
    intro b
    induction b with
    | nil => simp [merge]
    | cons y ys ihb =>
      simp only [merge]
      by_cases h : TotalFloat.cmp x y = .gt
      · rw [if_pos h]
        exact (ihb.cons y).trans List.perm_middle.symm
      · rw [if_neg h]
        exact (ih (y :: ys)).cons x

theorem merge_sorted : ∀ (a b : List TotalFloat), a.Sorted tfLe → b.Sorted tfLe →
    (merge a b).Sorted tfLe := by
  intro a
  induction a with
  | nil => intro b _ hb; simpa [merge] using hb
  | cons x xs ih =>
    intro b
    induction b with
    | nil => intro ha _; simpa [merge] using ha
    | cons y ys ihb =>
      intro ha hb
      obtain ⟨hxle, hxs⟩ := List.sorted_cons.mp ha
      obtain ⟨hyle, hys⟩ := List.sorted_cons.mp hb
      simp only [merge]
      by_cases h : TotalFloat.cmp x y = .gt
      · rw [if_pos h]
        refine List.sorted_cons.mpr ⟨?_, ihb ha hys⟩
        intro z hz
        rcases List.mem_append.mp ((merge_perm (x :: xs) ys).subset hz) with hz1 | hz2
        · rcases List.mem_cons.mp hz1 with rfl | hz1'
          · exact tfLe_of_gt h
          · exact tfLe_trans (tfLe_of_gt h) (hxle z hz1')
        · exact hyle z hz2
      · rw [if_neg h]
        refine List.sorted_cons.mpr ⟨?_, ih (y :: ys) hxs hb⟩
        intro z hz
        rcases List.mem_append.mp ((merge_perm xs (y :: ys)).subset hz) with hz1 | hz2
        · exact hxle z hz1
        · rcases List.mem_cons.mp hz2 with rfl | hz2'
          · exact tfLe_of_not_gt h
          · exact tfLe_trans (tfLe_of_not_gt h) (hyle z hz2')

theorem merge_sort_perm (s : List TotalFloat) : (merge_sort s).Perm s := by
  generalize hn : s.length = n
  induction n using Nat.strong_induction_on generalizing s with
  | _ n ih =>
    subst hn
    rw [merge_sort]
    by_cases h : s.length ≤ 1
    · rw [if_pos h]
    · rw [if_neg h]
      have hd : (s.drop (s.length / 2)).length < s.length := by
        rw [List.length_drop]; omega
      have ht : (s.take (s.length / 2)).length < s.length := by
        rw [List.length_take]; omega
      refine ((merge_perm _ _).trans
        (((List.Perm.append (ih _ hd _ rfl) (ih _ ht _ rfl)).trans
          List.perm_append_comm).trans ?_))
      rw [List.take_append_drop]

theorem merge_sort_sorted (s : List TotalFloat) : (merge_sort s).Sorted tfLe := by
  generalize hn : s.length = n
  induction n using Nat.strong_induction_on generalizing s with
  | _ n ih =>
    subst hn
    rw [merge_sort]
    by_cases h : s.length ≤ 1
    · rw [if_pos h]
      match s, h with
      | [], _ => exact List.sorted_nil
      | [x], _ => exact List.sorted_singleton x
    · rw [if_neg h]
      have hd : (s.drop (s.length / 2)).length < s.length := by
        rw [List.length_drop]; omega
      have ht : (s.take (s.length / 2)).length < s.length := by
        rw [List.length_take]; omega
      exact merge_sorted _ _ (ih _ hd _ rfl) (ih _ ht _ rfl)

/-! Two `tfLe`-sorted lists that are permutations of each other agree
pointwise up to `cmp = eq`. -/

theorem key_sorted_map {l : List TotalFloat} (h : l.Sorted tfLe) :
    (l.map key).Sorted (· ≤ ·) :=
  List.Pairwise.map key (fun a b hab => (tfLe_iff a b).mp hab) h

theorem forall2_cmp_eq_of_map_key_eq :
    ∀ l₁ l₂ : List TotalFloat, l₁.map key = l₂.map key →
      List.Forall₂ (fun a b => TotalFloat.cmp a b = .eq) l₁ l₂ := by
  intro l₁
  induction l₁ with
  | nil =>
    intro l₂ h
    cases l₂ with
    | nil => exact List.Forall₂.nil
    | cons y ys => simp at h
  | cons x xs ih =>
    intro l₂ h
    cases l₂ with
    | nil => simp at h
    | cons y ys =>
      simp only [List.map_cons, List.cons.injEq] at h
      exact List.Forall₂.cons ((tf_cmp_eq_eq_iff x y).mpr h.1) (ih ys h.2)

theorem sorted_perm_forall2 {l₁ l₂ : List TotalFloat} (hp : l₁.Perm l₂)
    (h₁ : l₁.Sorted tfLe) (h₂ : l₂.Sorted tfLe) :
    List.Forall₂ (fun a b => TotalFloat.cmp a b = .eq) l₁ l₂ :=
  forall2_cmp_eq_of_map_key_eq _ _
    (List.eq_of_perm_of_sorted (hp.map key) (key_sorted_map h₁) (key_sorted_map h₂))

/-! The claims. -/

/-- Claim C1: for every pair of `TotalFloat` values, `cmp` returns `Equal`
when both are NaN, `Less` when only the first is NaN, `Greater` when only the
second is NaN, and otherwise the standard IEEE-754 numeric comparison result
(the value of `f64::partial_cmp`).  In particular every NaN compares strictly
less than every non-NaN value, including negative infinity. -/
theorem claim_c1_nan_ordering (a b : TotalFloat) :
    (a.inner.is_nan = true → b.inner.is_nan = true → TotalFloat.cmp a b = .eq) ∧
    (a.inner.is_nan = true → b.inner.is_nan = false → TotalFloat.cmp a b = .lt) ∧
    (a.inner.is_nan = false → b.inner.is_nan = true → TotalFloat.cmp a b = .gt) ∧
    (a.inner.is_nan = false → b.inner.is_nan = false →
      f64PartialCmp a.inner b.inner = some (TotalFloat.cmp a b)) := by
  refine ⟨?_, ?_, ?_, ?_⟩ <;> intro ha hb <;>
    simp [TotalFloat.cmp, TotalFloat.cmpOpt, f64PartialCmp, ha, hb]

/-- Witness for C1: the NaN with payload 1 compares `Less` than negative
infinity. -/
theorem claim_c1_witness : TotalFloat.cmp tfNan tfNegInf = .lt :=
  (claim_c1_nan_ordering tfNan tfNegInf).2.1 (by decide) (by decide)

/-- Claim C2: `equals(a, b)` is true iff both operands are NaN (any payload or
sign) or IEEE numeric equality holds; in particular
`equals(wrap(-0.0), wrap(0.0))` is true. -/
theorem claim_c2_equals_spec (a b : TotalFloat) :
    (TotalFloat.eq a b = true ↔
      ((a.inner.is_nan = true ∧ b.inner.is_nan = true) ∨
        f64Eq a.inner b.inner = true)) ∧
    TotalFloat.eq tfNegZero tfPosZero = true := by
  constructor
  · simp [TotalFloat.eq, Bool.or_eq_true, Bool.and_eq_true]
  · decide

/-- Claim C3: the comparison is total — for every pair of values `cmpOpt`
returns `some` of a definite ordering (the one `cmp` yields); the failure
branch of the `expect` on the underlying partial comparison (`cmpOpt = none`)
is unreachable, because it is only taken with both operands non-NaN. -/
theorem claim_c3_totality (a b : TotalFloat) :
    TotalFloat.cmpOpt a b = some (TotalFloat.cmp a b) := by
  unfold TotalFloat.cmp TotalFloat.cmpOpt f64PartialCmp
  cases ha : a.inner.is_nan <;> cases hb : b.inner.is_nan <;> simp

/-- Claim C10: `compare` returns `Equal` exactly when `equals` is true, and
both relations are reflexive — every value, including any NaN, equals itself
and compares `Equal` to itself. -/
theorem claim_c10_eq_cmp_consistency (a b : TotalFloat) :
    (TotalFloat.cmp a b = .eq ↔ TotalFloat.eq a b = true) ∧
    TotalFloat.eq a a = true ∧ TotalFloat.cmp a a = .eq :=
  ⟨(eq_true_iff_cmp_eq a b).symm,
    (eq_true_iff_cmp_eq a a).mpr ((tf_cmp_eq_eq_iff a a).mpr rfl),
    (tf_cmp_eq_eq_iff a a).mpr rfl⟩

/-- Claim C4: the sorted output is ordered — any two adjacent elements of
`merge_sort s` compare `Less` or `Equal`. -/
theorem claim_c4_sorted_output (s : List TotalFloat) (i : Nat)
    (h : i + 1 < (merge_sort s).length) :
    ∃ u v, (merge_sort s)[i]? = some u ∧ (merge_sort s)[i + 1]? = some v ∧
      (TotalFloat.cmp u v = .lt ∨ TotalFloat.cmp u v = .eq) := by
  have hi : i < (merge_sort s).length := by omega
  refine ⟨(merge_sort s)[i], (merge_sort s)[i + 1],
    List.getElem?_eq_getElem hi, List.getElem?_eq_getElem h, ?_⟩
  have hp := List.pairwise_iff_get.mp (merge_sort_sorted s)
    ⟨i, hi⟩ ⟨i + 1, h⟩ (Fin.mk_lt_mk.mpr (Nat.lt_succ_self i))
  rw [List.get_eq_getElem, List.get_eq_getElem] at hp
  cases ho : TotalFloat.cmp ((merge_sort s)[i]) ((merge_sort s)[i + 1]) with
  | lt => exact Or.inl rfl
  | eq => exact Or.inr rfl
  | gt => exact absurd ho hp

/-- Witness for C4: sorting `[2.0, 1.0]`, the two adjacent elements of the
output compare `Less` or `Equal`. -/
theorem claim_c4_witness :
    ∃ u v, (merge_sort [tfTwo, tfOne])[0]? = some u ∧
      (merge_sort [tfTwo, tfOne])[1]? = some v ∧
      (TotalFloat.cmp u v = .lt ∨ TotalFloat.cmp u v = .eq) :=
  claim_c4_sorted_output [tfTwo, tfOne] 0
    (by simp [(merge_sort_perm [tfTwo, tfOne]).length_eq])

/-- Claim C5: `merge_sort` is a permutation — it preserves the length and the
multiset of elements of its input. -/
theorem claim_c5_permutation (s : List TotalFloat) :
    (merge_sort s).length = s.length ∧
    (↑(merge_sort s) : Multiset TotalFloat) = (↑s : Multiset TotalFloat) :=
  ⟨(merge_sort_perm s).length_eq, Multiset.coe_eq_coe.mpr (merge_sort_perm s)⟩

/-- Claim C6: the merge contract — given two inputs each ordered ascending
(adjacent elements compare not-`Greater`), `merge` returns an ascending
sequence whose length is the sum of the input lengths and whose multiset of
elements is the union with multiplicity of the inputs; and when the current
heads compare `Equal` the left input's element is emitted first. -/
theorem claim_c6_merge_contract (a b : List TotalFloat)
    (ha : List.Chain' tfLe a) (hb : List.Chain' tfLe b) :
    List.Chain' tfLe (merge a b) ∧
    (merge a b).length = a.length + b.length ∧
    (↑(merge a b) : Multiset TotalFloat) =
      (↑a : Multiset TotalFloat) + (↑b : Multiset TotalFloat) ∧
    (∀ x xs y ys, TotalFloat.cmp x y = .eq →
      merge (x :: xs) (y :: ys) = x :: merge xs (y :: ys)) := by
  haveI : IsTrans TotalFloat tfLe := ⟨fun _ _ _ => tfLe_trans⟩
  refine ⟨?_, ?_, ?_, ?_⟩
  · exact List.chain'_iff_pairwise.mpr
      (merge_sorted a b (List.chain'_iff_pairwise.mp ha)
        (List.chain'_iff_pairwise.mp hb))
  · rw [(merge_perm a b).length_eq, List.length_append]
  · rw [Multiset.coe_eq_coe.mpr (merge_perm a b)]
    exact_mod_cast rfl
  · intro x xs y ys hxy
    simp only [merge]
    rw [if_neg (by simp [hxy])]

/-- Witness for C6 on the singleton ascending inputs `[1.0]` and `[2.0]`. -/
theorem claim_c6_witness :
    List.Chain' tfLe (merge [tfOne] [tfTwo]) ∧
    (merge [tfOne] [tfTwo]).length = [tfOne].length + [tfTwo].length ∧
    (↑(merge [tfOne] [tfTwo]) : Multiset TotalFloat) =
      (↑[tfOne] : Multiset TotalFloat) + (↑[tfTwo] : Multiset TotalFloat) ∧
    (∀ x xs y ys, TotalFloat.cmp x y = .eq →
      merge (x :: xs) (y :: ys) = x :: merge xs (y :: ys)) :=
  claim_c6_merge_contract [tfOne] [tfTwo] (by simp) (by simp)

/-- Claim C7: sorting is idempotent up to the adapter's equality —
`merge_sort (merge_sort s)` agrees element-wise (under `TotalFloat.eq`) with
`merge_sort s`. -/
theorem claim_c7_idempotent (s : List TotalFloat) :
    List.Forall₂ (fun a b => TotalFloat.eq a b = true)
      (merge_sort (merge_sort s)) (merge_sort s) :=
  (sorted_perm_forall2 (merge_sort_perm (merge_sort s))
      (merge_sort_sorted (merge_sort s)) (merge_sort_sorted s)).imp
    (fun a b hab => (eq_true_iff_cmp_eq a b).mpr hab)

/-- Claim C9: `merge_sort` passes the sorted second (upper) half of its input
as `merge`'s left argument; on an `Equal` comparison `merge` emits the left
(second-half) element first; consequently
`merge_sort [wrap 0.0, wrap (-0.0)] = [wrap (-0.0), wrap 0.0]` bit-for-bit,
so the sort is not stable with respect to input order. -/
theorem claim_c9_tie_order (s : List TotalFloat) (h : 2 ≤ s.length) :
    merge_sort s =
      merge (merge_sort (s.drop (s.length / 2)))
        (merge_sort (s.take (s.length / 2))) ∧
    (∀ x xs y ys, TotalFloat.cmp x y = .eq →
      merge (x :: xs) (y :: ys) = x :: merge xs (y :: ys)) ∧
    merge_sort [tfPosZero, tfNegZero] = [tfNegZero, tfPosZero] := by
  refine ⟨?_, ?_, ?_⟩
  · rw [merge_sort, if_neg (by omega)]
  · intro x xs y ys hxy
    simp only [merge]
    rw [if_neg (by simp [hxy])]
  · simp [merge_sort, merge, TotalFloat.cmp, TotalFloat.cmpOpt, f64PartialCmp,
      F64.is_nan, F64.toExt, F64.scaled, Ext.cmp, compare_int_eval,
      tfPosZero, tfNegZero]

/-- Witness for C9 at the two-element input `[wrap 0.0, wrap (-0.0)]`. -/
theorem claim_c9_witness :
    merge_sort [tfPosZero, tfNegZero] =
      merge
        (merge_sort ([tfPosZero, tfNegZero].drop
          ([tfPosZero, tfNegZero].length / 2)))
        (merge_sort ([tfPosZero, tfNegZero].take
          ([tfPosZero, tfNegZero].length / 2))) ∧
    (∀ x xs y ys, TotalFloat.cmp x y = .eq →
      merge (x :: xs) (y :: ys) = x :: merge xs (y :: ys)) ∧
    merge_sort [tfPosZero, tfNegZero] = [tfNegZero, tfPosZero] :=
  claim_c9_tie_order [tfPosZero, tfNegZero] (by decide)

/-- Counterexample to C8 as stated: the sequence the entry point renders is
the literal list itself, unsorted, which differs from `merge_sort` of that
list (`merge_sort` would move the NaN to the front). -/
theorem claim_c8_counterexample : main_rendered ≠ merge_sort my_list := by
  simp [main_rendered, my_list, merge_sort, merge, TotalFloat.cmp,
    TotalFloat.cmpOpt, f64PartialCmp, F64.is_nan, F64.toExt, F64.scaled,
    Ext.cmp, compare_int_eval, f64_one, f64_two, f64_five, f64_three,
    f64_192, f64_nan_quiet]

/-- Claim C8 as amended: the demonstration entry point constructs the literal
sequence `[1.0, 2.0, 5.0, 3.0, 192.0, -0.0/0.0]` of wrapped values and renders
that sequence directly, without invoking the sort; the sequence it renders
equals the literal sequence it constructs and differs from `merge_sort`
applied to it. -/
theorem claim_c8_amended :
    main_rendered = my_list ∧ main_rendered ≠ merge_sort my_list :=
  ⟨rfl, by
    simp [main_rendered, my_list, merge_sort, merge, TotalFloat.cmp,
      TotalFloat.cmpOpt, f64PartialCmp, F64.is_nan, F64.toExt, F64.scaled,
      Ext.cmp, compare_int_eval, f64_one, f64_two, f64_five, f64_three,
      f64_192, f64_nan_quiet]⟩

end FcLab
